import Mathlib

/-!
# threewordhash — formal model of `src/threewordhash/core.py`

A shallow embedding of the deterministic identifier pipeline:
normalization, HMAC-SHA256 keyed digest, hash-to-index expansion,
base-36 checksum, and identifier assembly.

Bytes are modelled as natural numbers `< 256` in `List Nat`; Python
strings are `List Char` (Lean `Char` is a Unicode scalar value, as is a
Python `str` code point).  Machine arithmetic is `Nat` with explicit
`% 2^32` where the source relies on 32-bit words.
-/

namespace ThreeWordHash

/-! ## 32-bit word arithmetic (for SHA-256) -/

def w32 (x : Nat) : Nat := x % 4294967296

def add32 (a b : Nat) : Nat := (a + b) % 4294967296

/-- Right rotation of a 32-bit word. -/
def rotr32 (n x : Nat) : Nat := w32 ((x >>> n) ||| (x <<< (32 - n)))

def shiftr32 (n x : Nat) : Nat := x >>> n

def sumBig0 (x : Nat) : Nat := (rotr32 2 x) ^^^ (rotr32 13 x) ^^^ (rotr32 22 x)
def sumBig1 (x : Nat) : Nat := (rotr32 6 x) ^^^ (rotr32 11 x) ^^^ (rotr32 25 x)
def sigSmall0 (x : Nat) : Nat := (rotr32 7 x) ^^^ (rotr32 18 x) ^^^ (shiftr32 3 x)
def sigSmall1 (x : Nat) : Nat := (rotr32 17 x) ^^^ (rotr32 19 x) ^^^ (shiftr32 10 x)

/-- `Ch(x,y,z)`; `¬x` is taken as xor with the 32-bit mask. -/
def ch (x y z : Nat) : Nat := (x &&& y) ^^^ ((x ^^^ 4294967295) &&& z)

def maj (x y z : Nat) : Nat := (x &&& y) ^^^ (x &&& z) ^^^ (y &&& z)

/-- The 64 SHA-256 round constants (FIPS 180-4 §4.2.2). -/
def sha256K : List Nat :=
  [1116352408, 1899447441, 3049323471, 3921009573,
   961987163, 1508970993, 2453635748, 2870763221,
   3624381080, 310598401, 607225278, 1426881987,
   1925078388, 2162078206, 2614888103, 3248222580,
   3835390401, 4022224774, 264347078, 604807628,
   770255983, 1249150122, 1555081692, 1996064986,
   2554220882, 2821834349, 2952996808, 3210313671,
   3336571891, 3584528711, 113926993, 338241895,
   666307205, 773529912, 1294757372, 1396182291,
   1695183700, 1986661051, 2177026350, 2456956037,
   2730485921, 2820302411, 3259730800, 3345764771,
   3516065817, 3600352804, 4094571909, 275423344,
   430227734, 506948616, 659060556, 883997877,
   958139571, 1322822218, 1537002063, 1747873779,
   1955562222, 2024104815, 2227730452, 2361852424,
   2428436474, 2756734187, 3204031479, 3329325298]

/-- SHA-256 working state: the eight 32-bit variables `a..h`. -/
structure H8 where
  a : Nat
  b : Nat
  c : Nat
  d : Nat
  e : Nat
  f : Nat
  g : Nat
  h : Nat

/-- Initial hash value (FIPS 180-4 §5.3.3). -/
def sha256H0 : H8 :=
  ⟨1779033703, 3144134277, 1013904242, 2773480762,
   1359893119, 2600822924, 528734635, 1541459225⟩

/-- Group a byte list into big-endian 32-bit words (the list length is a
multiple of 4 whenever this is used). -/
def toWords32 : List Nat → List Nat
  | a :: b :: c :: d :: rest =>
      (a * 16777216 + b * 65536 + c * 256 + d) :: toWords32 rest
  | _ => []

/-- Extend the 16 message words by `n` more schedule words (FIPS 180-4 §6.2.2
step 1); new words are appended at the end. -/
def extendW (ws : List Nat) : Nat → List Nat
  | 0 => ws
  | n + 1 =>
      let l := ws.length
      let wNew := (sigSmall1 (ws.getD (l - 2) 0) + ws.getD (l - 7) 0 +
                   sigSmall0 (ws.getD (l - 15) 0) + ws.getD (l - 16) 0) % 4294967296
      extendW (ws ++ [wNew]) n

/-- One round of the SHA-256 compression function. -/
def shaStep (s : H8) (kw : Nat × Nat) : H8 :=
  let t1 := (s.h + sumBig1 s.e + ch s.e s.f s.g + kw.1 + kw.2) % 4294967296
  let t2 := (sumBig0 s.a + maj s.a s.b s.c) % 4294967296
  ⟨(t1 + t2) % 4294967296, s.a, s.b, s.c, (s.d + t1) % 4294967296, s.e, s.f, s.g⟩

/-- Process one 64-byte block. -/
def compressBlock (h : H8) (block : List Nat) : H8 :=
  let ws := extendW (toWords32 block) 48
  let f := (sha256K.zip ws).foldl (fun s kw => shaStep s (kw.2, kw.1)) h
  ⟨add32 f.a h.a, add32 f.b h.b, add32 f.c h.c, add32 f.d h.d,
   add32 f.e h.e, add32 f.f h.f, add32 f.g h.g, add32 f.h h.h⟩

/-- A `Nat` as `k` big-endian bytes. -/
def beBytes : Nat → Nat → List Nat
  | 0, _ => []
  | k + 1, n => beBytes k (n / 256) ++ [n % 256]

/-- SHA-256 message padding: `0x80`, zeros, then the 8-byte big-endian bit
length, to a multiple of 64 bytes. -/
def shaPad (msg : List Nat) : List Nat :=
  let l := msg.length
  let k := (64 - ((l + 9) % 64)) % 64
  msg ++ [128] ++ List.replicate k 0 ++ beBytes 8 (l * 8)

/-- Split into 64-byte blocks (structural recursion on a fuel bounded by the
list length, so that the kernel can evaluate it). -/
def blocks64Go : Nat → List Nat → List (List Nat)
  | 0, _ => []
  | _, [] => []
  | fuel + 1, x :: l => (x :: l).take 64 :: blocks64Go fuel ((x :: l).drop 64)

def blocks64 (l : List Nat) : List (List Nat) := blocks64Go l.length l

/-- SHA-256 of a byte string, as its 32 digest bytes. -/
def sha256 (msg : List Nat) : List Nat :=
  let fin := (blocks64 (shaPad msg)).foldl compressBlock sha256H0
  beBytes 4 fin.a ++ beBytes 4 fin.b ++ beBytes 4 fin.c ++ beBytes 4 fin.d ++
  beBytes 4 fin.e ++ beBytes 4 fin.f ++ beBytes 4 fin.g ++ beBytes 4 fin.h

theorem beBytes_length (k n : Nat) : (beBytes k n).length = k := by
  induction k generalizing n with
  | zero => rfl
  | succ k ih => simp [beBytes, ih]

/-- The digest is always exactly 32 bytes. -/
theorem sha256_length (msg : List Nat) : (sha256 msg).length = 32 := by
  simp [sha256, beBytes_length]

/-! ## HMAC-SHA256 (RFC 2104, as `hmac.new(key, msg, hashlib.sha256)`) -/

/-- HMAC-SHA256: keys longer than the 64-byte block are first hashed, then the
key is zero-padded to 64 bytes and combined with the `ipad`/`opad` masks. -/
def hmacSha256 (key msg : List Nat) : List Nat :=
  let k0 := if 64 < key.length then sha256 key else key
  let kp := k0 ++ List.replicate (64 - k0.length) 0
  sha256 ((kp.map (fun b => b ^^^ 0x5c)) ++
          sha256 ((kp.map (fun b => b ^^^ 0x36)) ++ msg))

theorem hmacSha256_length (key msg : List Nat) :
    (hmacSha256 key msg).length = 32 := by
  simp [hmacSha256, sha256_length]

/-! ## UTF-8 encoding (`str.encode("utf-8")` over Unicode scalar values) -/

/-- UTF-8 bytes of one Unicode scalar value. -/
def utf8Char (c : Char) : List Nat :=
  let n := c.toNat
  if n < 0x80 then [n]
  else if n < 0x800 then
    [0xC0 ||| (n >>> 6), 0x80 ||| (n &&& 0x3F)]
  else if n < 0x10000 then
    [0xE0 ||| (n >>> 12), 0x80 ||| ((n >>> 6) &&& 0x3F), 0x80 ||| (n &&& 0x3F)]
  else
    [0xF0 ||| (n >>> 18), 0x80 ||| ((n >>> 12) &&& 0x3F),
     0x80 ||| ((n >>> 6) &&& 0x3F), 0x80 ||| (n &&& 0x3F)]

/-- UTF-8 bytes of a string. -/
def utf8 (s : List Char) : List Nat := (s.map utf8Char).flatten

/-! ## Python string primitives

`str.strip()` / `str.split()` whitespace, `str.lower()` and NFKC are the
pieces of the Python standard library the source calls.  Whitespace and
splitting are modelled exactly.  `str.lower()`, `str.casefold()` and NFKC
are driven by Unicode tables far too large to transcribe; they are modelled
exactly for ASCII and for the tabulated code points used in this
development (all entries below are copied from the Unicode character
database), and are the identity elsewhere. -/

/-- The Python `str.split()` / `str.strip()` whitespace set
(`Py_UNICODE_ISSPACE`). -/
def pyIsSpace (c : Char) : Bool :=
  let n := c.toNat
  (9 ≤ n && n ≤ 13) || (28 ≤ n && n ≤ 32) || n == 0x85 || n == 0xA0 ||
  n == 0x1680 || (0x2000 ≤ n && n ≤ 0x200A) || n == 0x2028 || n == 0x2029 ||
  n == 0x202F || n == 0x205F || n == 0x3000

/-- Non-ASCII lowercase mappings used in this development (from
UnicodeData.txt; `str.lower()` can be one-to-many, e.g. U+0130). -/
def lowerTable : List (Nat × List Nat) :=
  [(0x0130, [0x69, 0x307]),   -- İ → i + combining dot above
   (0x0178, [0xFF]),          -- Ÿ → ÿ
   (0x1E9E, [0xDF]),          -- ẞ → ß
   (0x2126, [0x3C9]),         -- Ω (ohm sign) → ω
   (0x212A, [0x6B])]          -- K (Kelvin sign) → k

/-- `str.lower()` on one code point: ASCII and Latin-1 capitals shift by 32,
tabulated points map per `lowerTable`, everything else is unchanged (exact
for every code point this file's theorems touch; U+2116 and U+00DF have no
lowercase mapping). -/
def lowerChar (c : Char) : List Nat :=
  let n := c.toNat
  if 65 ≤ n && n ≤ 90 then [n + 32]
  else if (0xC0 ≤ n && n ≤ 0xD6) || (0xD8 ≤ n && n ≤ 0xDE) then [n + 32]
  else
    match lowerTable.find? (fun p => p.1 == n) with
    | some p => p.2
    | none => [n]

def ofCodes (l : List Nat) : List Char := l.map Char.ofNat

/-- `str.lower()` over a string. -/
def pyLower (s : List Char) : List Char := (s.map (fun c => ofCodes (lowerChar c))).flatten

/-- Unicode full case folding entries used in this development
(CaseFolding.txt; status C/F).  ASCII capitals fold like `lower`; the key
divergence from `str.lower()` is U+00DF ß → "ss". -/
def foldTable : List (Nat × List Nat) :=
  [(0xDF, [0x73, 0x73]),      -- ß → ss
   (0x0130, [0x69, 0x307]),
   (0x0178, [0xFF]),
   (0x1E9E, [0x73, 0x73]),    -- ẞ → ss
   (0x2126, [0x3C9]),
   (0x212A, [0x6B])]

/-- `str.casefold()` on one code point (exact for ASCII, Latin-1 capitals and
the tabulated points; identity elsewhere). -/
def foldChar (c : Char) : List Nat :=
  let n := c.toNat
  if 65 ≤ n && n ≤ 90 then [n + 32]
  else if (0xC0 ≤ n && n ≤ 0xD6) || (0xD8 ≤ n && n ≤ 0xDE) then [n + 32]
  else
    match foldTable.find? (fun p => p.1 == n) with
    | some p => p.2
    | none => [n]

/-- Unicode case folding over a string. -/
def pyCasefold (s : List Char) : List Char := (s.map (fun c => ofCodes (foldChar c))).flatten

/-- NFKC compatibility mappings used in this development (from
UnicodeData.txt compatibility decompositions; note U+2116 № → "No"
reintroduces an uppercase letter). -/
def nfkcTable : List (Nat × List Nat) :=
  [(0xA0, [0x20]),            -- no-break space → space
   (0x2116, [0x4E, 0x6F]),    -- № → No
   (0x2126, [0x3A9]),         -- Ω (ohm sign) → Ω (greek capital omega)
   (0xFB01, [0x66, 0x69]),    -- ﬁ → fi
   (0x3000, [0x20])]          -- ideographic space → space

/-- NFKC on one code point: tabulated compatibility decomposition, identity
elsewhere (char-wise model; exact for the code points this file's theorems
touch — in particular NFKC is the identity on ASCII). -/
def nfkcChar (c : Char) : List Nat :=
  match nfkcTable.find? (fun p => p.1 == c.toNat) with
  | some p => p.2
  | none => [c.toNat]

/-- `unicodedata.normalize("NFKC", s)`. -/
def nfkc (s : List Char) : List Char := (s.map (fun c => ofCodes (nfkcChar c))).flatten

/-- `str.strip()`: drop Python whitespace from both ends. -/
def pyStrip (s : List Char) : List Char :=
  ((s.dropWhile pyIsSpace).reverse.dropWhile pyIsSpace).reverse

/-- `str.split()` with no argument: maximal non-whitespace runs, empties
dropped (structural recursion on a fuel bounded by the length). -/
def pySplitGo : Nat → List Char → List (List Char)
  | 0, _ => []
  | fuel + 1, s =>
    let s1 := s.dropWhile pyIsSpace
    match s1 with
    | [] => []
    | _ :: _ =>
        s1.takeWhile (fun c => !pyIsSpace c) ::
          pySplitGo fuel (s1.dropWhile (fun c => !pyIsSpace c))

def pySplit (s : List Char) : List (List Char) := pySplitGo s.length s

/-- `sep.join(tokens)`. -/
def pyJoin (sep : List Char) : List (List Char) → List Char
  | [] => []
  | [t] => t
  | t :: ts => t ++ sep ++ pyJoin sep ts

/-- `" ".join(tokens)`. -/
def joinSpace (ts : List (List Char)) : List Char := pyJoin [' '] ts

/-! ## The source functions (`core.py`) -/

/-- `_normalize`: `s = unicodedata.normalize("NFKC", s.strip().lower())`
followed by `" ".join(s.split())`. -/
def py_normalize (s : List Char) : List Char :=
  joinSpace (pySplit (nfkc (pyLower (pyStrip s))))

/-- `_hmac_sha256(key, msg)`:
`hmac.new(key, _normalize(msg).encode("utf-8"), hashlib.sha256).digest()`. -/
def py_hmac_sha256 (key : List Nat) (msg : List Char) : List Nat :=
  hmacSha256 key (utf8 (py_normalize msg))

/-- A counter as its 2-byte big-endian encoding, `ctr.to_bytes(2, "big")`
(exact for `ctr < 65536`; Python raises OverflowError beyond, which the
counts considered here never reach). -/
def be2 (ctr : Nat) : List Nat := [ctr / 256 % 256, ctr % 256]

/-- `int.from_bytes(b, "big", signed=False)`. -/
def beNat (b : List Nat) : Nat := b.foldl (fun acc x => acc * 256 + x) 0

/-- The inner `for i in range(0, len(pool), 4)` loop of `_bytes_to_indices`:
emit `val % vocab_size` for each complete 4-byte big-endian chunk, stop at a
short trailing chunk or when `needed` reaches 0; returns the emitted values
and the remaining `needed`. -/
def btiInner : List Nat → Nat → Nat → (List Nat × Nat)
  | a :: b :: c :: d :: rest, vocab, needed =>
      if needed = 0 then ([], 0)
      else
        let val := a * 16777216 + b * 65536 + c * 256 + d
        let r := btiInner rest vocab (needed - 1)
        ((val % vocab) :: r.1, r.2)
  | _, _, needed => ([], needed)

/-- The outer `while needed > 0` loop of `_bytes_to_indices`: scan the pool,
then on exhaustion re-hash `pool + ctr.to_bytes(2, "big")` with the counter
pre-incremented.  Structural recursion on a fuel; `needed + 1` outer
iterations always suffice (each re-hashed pool is 32 bytes, hence yields at
least one chunk). -/
def btiOuter : Nat → List Nat → Nat → Nat → Nat → List Nat
  | 0, _, _, _, _ => []
  | fuel + 1, pool, vocab, needed, ctr =>
      if needed = 0 then []
      else
        let r := btiInner pool vocab needed
        if r.2 = 0 then r.1
        else r.1 ++ btiOuter fuel (sha256 (pool ++ be2 (ctr + 1))) vocab r.2 (ctr + 1)

/-- `_bytes_to_indices(b, vocab_size, n)`.  Python raises ZeroDivisionError at
the first `val % vocab_size` when `vocab_size == 0` (reached whenever
`n ≥ 1`), modelled as `none`. -/
def py_bytes_to_indices (b : List Nat) (vocab_size n : Nat) : Option (List Nat) :=
  if vocab_size = 0 then (if n = 0 then some [] else none)
  else some (btiOuter (n + 1) b vocab_size n 0)

/-- The checksum alphabet `string.digits + string.ascii_uppercase`. -/
def chars36 : List Char := "0123456789ABCDEFGHIJKLMNOPQRSTUVWXYZ".toList

/-- The `for _ in range(length)` loop of `_checksum_base36`:
`out = chars[num % 36] + out; num //= 36`. -/
def csLoop : Nat → Nat → List Char → List Char
  | _, 0, out => out
  | num, k + 1, out => csLoop (num / 36) k (chars36.getD (num % 36) '0' :: out)

/-- `_checksum_base36(b, length)` (a Python `int` length; `range` of a
non-positive length is empty). -/
def py_checksum_base36 (b : List Nat) (length : Int) : List Char :=
  csLoop (beNat (sha256 b)) length.toNat []

/-- Errors `friendly_id` can raise. -/
inductive PyErr where
  | invalidParameter
  | zeroDivision
  deriving DecidableEq, Repr

/-- `digest = _hmac_sha256(secret_salt.encode("utf-8"), user_input)`. -/
def fid_digest (user_input secret_salt : List Char) : List Nat :=
  py_hmac_sha256 (utf8 secret_salt) user_input

/-- `idxs = _bytes_to_indices(digest, len(wordlist), n_words)`. -/
def fid_idxs (user_input secret_salt : List Char) (wordlist : List (List Char))
    (n_words : Int) : Option (List Nat) :=
  py_bytes_to_indices (fid_digest user_input secret_salt) wordlist.length n_words.toNat

/-- `words = [wordlist[i] for i in idxs]` (indices are provably in range
whenever the wordlist is non-empty, so a defaulted lookup is exact). -/
def fid_words (user_input secret_salt : List Char) (wordlist : List (List Char))
    (n_words : Int) : Option (List (List Char)) :=
  (fid_idxs user_input secret_salt wordlist n_words).map
    (fun idxs => idxs.map (fun i => wordlist.getD i []))

/-- `friendly_id(user_input, secret_salt, wordlist, n_words, checksum_len, sep)`:
validate `n_words`, derive digest, indices, words and checksum, and join
`words + [check] if checksum_len > 0 else words` with `sep`. -/
def friendly_id (user_input secret_salt : List Char) (wordlist : List (List Char))
    (n_words checksum_len : Int) (sep : List Char) : Except PyErr (List Char) :=
  if n_words < 2 then .error .invalidParameter
  else
    match fid_words user_input secret_salt wordlist n_words with
    | none => .error .zeroDivision
    | some words =>
        let check := py_checksum_base36 (fid_digest user_input secret_salt) checksum_len
        .ok (pyJoin sep (if 0 < checksum_len then words ++ [check] else words))

/-! ## Specification-side models (for refinement comparisons)

These definitions follow the spec's wording (spec §4.1, §4.3, §4.4) and are
compared with the source embeddings above. -/

/-- The big-endian unsigned 32-bit values of the non-overlapping complete
4-byte chunks of a byte pool; a trailing chunk shorter than 4 bytes is
discarded. -/
def chunks4 : List Nat → List Nat
  | a :: b :: c :: d :: rest =>
      (a * 16777216 + b * 65536 + c * 256 + d) :: chunks4 rest
  | _ => []

/-- The Index Stream Expander as worded by the spec: scan the pool's complete
chunks reduced mod `modulus` until `remaining` values exist; if the pool is
exhausted first, replace the pool by SHA-256(pool ‖ 2-byte big-endian
counter), the counter starting at 1 and incrementing per extension.  The
fuel argument only bounds the number of extension rounds; `count + 1` rounds
provably suffice. -/
def specLoop : Nat → List Nat → Nat → Nat → Nat → List Nat
  | 0, _, _, _, _ => []
  | fuel + 1, pool, modulus, remaining, ctr =>
      if remaining = 0 then []
      else
        let vals := ((chunks4 pool).map (fun v => v % modulus)).take remaining
        if remaining ≤ (chunks4 pool).length then vals
        else vals ++ specLoop fuel (sha256 (pool ++ be2 ctr)) modulus
              (remaining - vals.length) (ctr + 1)

/-- Spec §4.3 `expand(seed, modulus, count)`. -/
def expandSpec (seed : List Nat) (modulus count : Nat) : List Nat :=
  specLoop (count + 1) seed modulus count 1

/-- Spec §4.4: the base-36 digits, accumulated least-significant first by
prepending (stated here as the recursion that puts the digit of `num` last
after the digits of `num / 36`). -/
def csSpecDigits : Nat → Nat → List Char
  | _, 0 => []
  | num, k + 1 => csSpecDigits (num / 36) k ++ [chars36.getD (num % 36) '0']

/-- Spec §4.4 checksum: `length` base-36 digits of SHA-256(`digest_input`)
read as a big-endian unsigned integer, most significant digit first. -/
def specChecksum (digest_input : List Nat) (length : Nat) : List Char :=
  csSpecDigits (beNat (sha256 digest_input)) length

/-- The Normalizer as claimed: strip, *full Unicode case-folding*
(`str.casefold()` semantics), NFKC, collapse whitespace. -/
def normalizeSpecCF (s : List Char) : List Char :=
  joinSpace (pySplit (nfkc (pyCasefold (pyStrip s))))

/-! ## Lemmas: the index stream expander -/

theorem chunks4_length (l : List Nat) : (chunks4 l).length = l.length / 4 := by
  induction l using chunks4.induct with
  | case1 a b c d rest ih =>
      simp only [chunks4, List.length_cons, ih]
      omega
  | case2 l h =>
      match l, h with
      | [], _ => simp [chunks4]
      | [a], _ => simp [chunks4]
      | [a, b], _ => simp [chunks4]
      | [a, b, c], _ => simp [chunks4]
      | a :: b :: c :: d :: rest, h => exact absurd rfl (h a b c d rest)

/-- The inner scan loop, described through the chunk values: the first
`needed` chunk values reduced mod `v`, together with how many values are
still missing. -/
theorem btiInner_eq (pool : List Nat) (v needed : Nat) :
    btiInner pool v needed =
      (((chunks4 pool).map (fun x => x % v)).take needed,
        needed - min needed (chunks4 pool).length) := by
  induction pool using chunks4.induct generalizing needed with
  | case1 a b c d rest ih =>
      by_cases h0 : needed = 0
      · subst h0; simp [btiInner, chunks4]
      · obtain ⟨k, rfl⟩ : ∃ k, needed = k + 1 := ⟨needed - 1, by omega⟩
        simp only [btiInner, if_neg h0, ih, chunks4, List.map_cons, List.take_succ_cons,
          List.length_cons, Nat.add_sub_cancel]
        simp only [Prod.mk.injEq, true_and]
        omega
  | case2 l h =>
      match l, h with
      | [], _ => simp [btiInner, chunks4]
      | [a], _ => simp [btiInner, chunks4]
      | [a, b], _ => simp [btiInner, chunks4]
      | [a, b, c], _ => simp [btiInner, chunks4]
      | a :: b :: c :: d :: rest, h => exact absurd rfl (h a b c d rest)

/-- When every pool is a 32-byte digest, `needed` outer rounds of fuel
suffice and the loop emits exactly `needed` values. -/
theorem btiOuter_length_sha :
    ∀ fuel pool v needed ctr, 1 ≤ needed → needed ≤ fuel → pool.length = 32 →
      (btiOuter fuel pool v needed ctr).length = needed := by
  intro fuel
  induction fuel with
  | zero => intro pool v needed ctr h1 h2 _; omega
  | succ f ih =>
      intro pool v needed ctr h1 h2 hlen
      have hne : needed ≠ 0 := by omega
      have hc : (chunks4 pool).length = 8 := by rw [chunks4_length, hlen]
      simp only [btiOuter, if_neg hne, btiInner_eq]
      by_cases hr : needed - min needed (chunks4 pool).length = 0
      · simp only [if_pos hr, List.length_take, List.length_map]
        omega
      · simp only [if_neg hr, List.length_append, List.length_take, List.length_map]
        rw [ih _ _ _ _ (by omega) (by omega) (sha256_length _)]
        omega

/-- With the fuel `_bytes_to_indices` is given, the loop emits exactly `n`
values, for any initial pool. -/
theorem btiOuter_length (b : List Nat) (v n : Nat) :
    (btiOuter (n + 1) b v n 0).length = n := by
  by_cases h0 : n = 0
  · subst h0; simp [btiOuter]
  · simp only [btiOuter, if_neg h0, btiInner_eq]
    by_cases hr : n - min n (chunks4 b).length = 0
    · simp only [if_pos hr, List.length_take, List.length_map]
      omega
    · simp only [if_neg hr, List.length_append, List.length_take, List.length_map]
      rw [btiOuter_length_sha _ _ _ _ _ (by omega) (by omega) (sha256_length _)]
      omega

/-- Every value the loop emits is a remainder mod `v`, hence `< v` when
`1 ≤ v`. -/
theorem btiOuter_mem :
    ∀ fuel pool v needed ctr, 1 ≤ v →
      ∀ x ∈ btiOuter fuel pool v needed ctr, x < v := by
  intro fuel
  induction fuel with
  | zero => intro pool v needed ctr _ x hx; simp [btiOuter] at hx
  | succ f ih =>
      intro pool v needed ctr hv x hx
      by_cases h0 : needed = 0
      · subst h0; simp [btiOuter] at hx
      · simp only [btiOuter, if_neg h0, btiInner_eq] at hx
        by_cases hr : needed - min needed (chunks4 pool).length = 0
        · simp only [if_pos hr] at hx
          obtain ⟨y, _, rfl⟩ := List.mem_map.mp (List.mem_of_mem_take hx)
          exact Nat.mod_lt _ (by omega)
        · simp only [if_neg hr, List.mem_append] at hx
          rcases hx with hx | hx
          · obtain ⟨y, _, rfl⟩ := List.mem_map.mp (List.mem_of_mem_take hx)
            exact Nat.mod_lt _ (by omega)
          · exact ih _ _ _ _ hv x hx

/-- The source loop coincides with the spec's expansion round for round: the
source pre-increments a counter born at 0, the spec's counter starts at 1. -/
theorem btiOuter_eq_specLoop :
    ∀ fuel pool v needed ctr,
      btiOuter fuel pool v needed ctr = specLoop fuel pool v needed (ctr + 1) := by
  intro fuel
  induction fuel with
  | zero => intro pool v needed ctr; rfl
  | succ f ih =>
      intro pool v needed ctr
      by_cases h0 : needed = 0
      · subst h0; simp [btiOuter, specLoop]
      · simp only [btiOuter, specLoop, if_neg h0, btiInner_eq]
        by_cases hb : needed ≤ (chunks4 pool).length
        · rw [if_pos (by omega), if_pos hb]
        · rw [if_neg (by omega), if_neg hb, ih]
          simp only [List.length_take, List.length_map]

/-- `_bytes_to_indices` computes exactly the spec's Index Stream Expander. -/
theorem py_bytes_to_indices_eq_spec (b : List Nat) (m n : Nat)
    (hm : 1 ≤ m) (_hn : 1 ≤ n) :
    py_bytes_to_indices b m n = some (expandSpec b m n) := by
  unfold py_bytes_to_indices expandSpec
  rw [if_neg (by omega)]
  exact congrArg some (btiOuter_eq_specLoop (n + 1) b m n 0)

/-! ## Lemmas: the checksum generator -/

/-- The source's prepend-accumulator loop produces the spec's digit string in
front of whatever it started with. -/
theorem csLoop_eq (k : Nat) :
    ∀ num out, csLoop num k out = csSpecDigits num k ++ out := by
  induction k with
  | zero => intro num out; rfl
  | succ k ih =>
      intro num out
      simp only [csLoop, csSpecDigits, ih, List.append_assoc, List.singleton_append]

theorem csSpecDigits_length (k : Nat) : ∀ num, (csSpecDigits num k).length = k := by
  induction k with
  | zero => intro num; rfl
  | succ k ih =>
      intro num
      simp [csSpecDigits, ih]

theorem chars36_getD_mem : ∀ i < 36, chars36.getD i '0' ∈ chars36 := by decide

theorem csSpecDigits_mem (k : Nat) :
    ∀ num, ∀ c ∈ csSpecDigits num k, c ∈ chars36 := by
  induction k with
  | zero => intro num c hc; simp [csSpecDigits] at hc
  | succ k ih =>
      intro num c hc
      simp only [csSpecDigits, List.mem_append, List.mem_singleton] at hc
      rcases hc with hc | rfl
      · exact ih _ c hc
      · exact chars36_getD_mem _ (Nat.mod_lt _ (by omega))

/-! ## Lemmas: Python `split` / `strip` / `join` -/

theorem length_dropWhile_le (p : α → Bool) (l : List α) :
    (l.dropWhile p).length ≤ l.length :=
  (List.dropWhile_sublist p).length_le

theorem dropWhile_head_false {p : α → Bool} (l : List α) :
    ∀ {a t}, l.dropWhile p = a :: t → p a = false := by
  induction l with
  | nil => intro a t h; simp [List.dropWhile] at h
  | cons x xs ih =>
      intro a t h
      rw [List.dropWhile_cons] at h
      by_cases hx : p x = true
      · rw [if_pos hx] at h; exact ih h
      · rw [if_neg hx] at h
        cases h
        simpa using hx

theorem dropWhile_idem (p : α → Bool) (l : List α) :
    (l.dropWhile p).dropWhile p = l.dropWhile p := by
  cases h : l.dropWhile p with
  | nil => rfl
  | cons a t => rw [List.dropWhile_cons, if_neg (by simp [dropWhile_head_false _ h])]

/-- The split loop only looks at the pool after its leading whitespace. -/
theorem pySplitGo_congr (f : Nat) (s t : List Char)
    (h : s.dropWhile pyIsSpace = t.dropWhile pyIsSpace) :
    pySplitGo f s = pySplitGo f t := by
  cases f with
  | zero => rfl
  | succ g => simp only [pySplitGo, h]

/-- Any fuel at least the string length computes `pySplit`. -/
theorem pySplitGo_irrel :
    ∀ f₁ f₂ (s : List Char), s.length ≤ f₁ → s.length ≤ f₂ →
      pySplitGo f₁ s = pySplitGo f₂ s := by
  intro f₁
  induction f₁ with
  | zero =>
      intro f₂ s h1 _
      have : s = [] := List.length_eq_zero.mp (by omega)
      subst this
      cases f₂ with
      | zero => rfl
      | succ g => simp [pySplitGo, List.dropWhile]
  | succ f ihf =>
      intro f₂ s h1 h2
      cases f₂ with
      | zero =>
          have : s = [] := List.length_eq_zero.mp (by omega)
          subst this
          simp [pySplitGo, List.dropWhile]
      | succ g =>
          simp only [pySplitGo]
          cases hs1 : s.dropWhile pyIsSpace with
          | nil => rfl
          | cons a t =>
              have hlen1 : (a :: t).length ≤ s.length := hs1 ▸ length_dropWhile_le _ s
              have hrec : ((a :: t).dropWhile (fun c => !pyIsSpace c)).length ≤ t.length := by
                rw [List.dropWhile_cons,
                  if_pos (by simp [dropWhile_head_false _ hs1])]
                exact length_dropWhile_le _ t
              have := ihf g ((a :: t).dropWhile (fun c => !pyIsSpace c))
                (by simp at hlen1 ⊢; omega) (by simp at hlen1 ⊢; omega)
              rw [this]

theorem pySplit_cons_of_space {c : Char} (s : List Char) (h : pyIsSpace c = true) :
    pySplit (c :: s) = pySplit s := by
  unfold pySplit
  have hd : (c :: s).dropWhile pyIsSpace = s.dropWhile pyIsSpace := by
    rw [List.dropWhile_cons, if_pos h]
  calc pySplitGo (c :: s).length (c :: s)
      = pySplitGo (c :: s).length s := pySplitGo_congr _ _ _ hd
    _ = pySplitGo s.length s := pySplitGo_irrel _ _ s (by simp) le_rfl

theorem pySplit_cons_of_tok {c : Char} (s : List Char) (h : pyIsSpace c = false) :
    pySplit (c :: s) =
      (c :: s.takeWhile (fun x => !pyIsSpace x)) ::
        pySplit (s.dropWhile (fun x => !pyIsSpace x)) := by
  unfold pySplit
  have hd : (c :: s).dropWhile pyIsSpace = c :: s := by
    rw [List.dropWhile_cons, if_neg (by simp [h])]
  simp only [List.length_cons, pySplitGo, hd]
  rw [List.takeWhile_cons, if_pos (by simp [h]),
    List.dropWhile_cons, if_pos (by simp [h])]
  have := pySplitGo_irrel s.length (s.dropWhile (fun x => !pyIsSpace x)).length
    (s.dropWhile (fun x => !pyIsSpace x)) (length_dropWhile_le _ s) le_rfl
  rw [this]

theorem pySplit_all_space {s : List Char} (h : ∀ c ∈ s, pyIsSpace c = true) :
    pySplit s = [] := by
  induction s with
  | nil => rfl
  | cons c t ih =>
      rw [pySplit_cons_of_space t (h c (by simp))]
      exact ih (fun x hx => h x (by simp [hx]))

theorem takeWhile_append_of_all {p : α → Bool} (l r : List α)
    (h : ∀ c ∈ l, p c = true) :
    (l ++ r).takeWhile p = l ++ r.takeWhile p := by
  induction l with
  | nil => rfl
  | cons a t ih =>
      simp only [List.cons_append, List.takeWhile_cons, if_pos (h a (by simp))]
      rw [ih (fun x hx => h x (by simp [hx]))]

theorem dropWhile_append_of_all {p : α → Bool} (l r : List α)
    (h : ∀ c ∈ l, p c = true) :
    (l ++ r).dropWhile p = r.dropWhile p := by
  induction l with
  | nil => rfl
  | cons a t ih =>
      simp only [List.cons_append, List.dropWhile_cons, if_pos (h a (by simp))]
      exact ih (fun x hx => h x (by simp [hx]))

theorem takeWhile_eq_self_of_all {p : α → Bool} {l : List α}
    (h : ∀ c ∈ l, p c = true) : l.takeWhile p = l := by
  have := takeWhile_append_of_all l ([] : List α) h
  simpa using this

theorem dropWhile_eq_nil_of_all {p : α → Bool} {l : List α}
    (h : ∀ c ∈ l, p c = true) : l.dropWhile p = [] := by
  have := dropWhile_append_of_all l ([] : List α) h
  simpa using this

/-- Every token `split` produces is non-empty and whitespace-free. -/
theorem pySplit_tokensAux :
    ∀ n (s : List Char), s.length ≤ n → ∀ t ∈ pySplit s,
      t ≠ [] ∧ ∀ c ∈ t, pyIsSpace c = false := by
  intro n
  induction n with
  | zero =>
      intro s hs t ht
      have : s = [] := List.length_eq_zero.mp (by omega)
      subst this
      simp [pySplit, pySplitGo] at ht
  | succ n ih =>
      intro s hs t ht
      cases s with
      | nil => simp [pySplit, pySplitGo] at ht
      | cons c s' =>
          by_cases hc : pyIsSpace c = true
          · rw [pySplit_cons_of_space s' hc] at ht
            exact ih s' (by simp at hs; omega) t ht
          · rw [pySplit_cons_of_tok s' (by simpa using hc)] at ht
            rcases List.mem_cons.mp ht with rfl | ht
            · refine ⟨by simp, ?_⟩
              intro x hx
              rcases List.mem_cons.mp hx with rfl | hx
              · simpa using hc
              · simpa using List.mem_takeWhile_imp hx
            · refine ih (s'.dropWhile (fun x => !pyIsSpace x))
                (by have := length_dropWhile_le (fun x => !pyIsSpace x) s'
                    simp at hs; omega) t ht

theorem pySplit_tokens (s : List Char) :
    ∀ t ∈ pySplit s, t ≠ [] ∧ ∀ c ∈ t, pyIsSpace c = false :=
  pySplit_tokensAux s.length s le_rfl

/-- `split` is a retraction of `" ".join` on lists of non-empty,
whitespace-free tokens. -/
theorem pySplit_joinSpace :
    ∀ ts : List (List Char),
      (∀ t ∈ ts, t ≠ [] ∧ ∀ c ∈ t, pyIsSpace c = false) →
      pySplit (joinSpace ts) = ts := by
  intro ts
  induction ts with
  | nil => intro _; rfl
  | cons t ts' ih =>
      intro h
      obtain ⟨hne, hfree⟩ := h t (by simp)
      obtain ⟨c, t', rfl⟩ : ∃ c t', t = c :: t' := by
        cases t with
        | nil => exact absurd rfl hne
        | cons c t' => exact ⟨c, t', rfl⟩
      have hc : pyIsSpace c = false := hfree c (by simp)
      have ht' : ∀ x ∈ t', pyIsSpace x = false := fun x hx => hfree x (by simp [hx])
      cases ts' with
      | nil =>
          show pySplit (c :: t') = [c :: t']
          rw [pySplit_cons_of_tok t' hc,
            takeWhile_eq_self_of_all (fun x hx => by simp [ht' x hx]),
            dropWhile_eq_nil_of_all (fun x hx => by simp [ht' x hx])]
          rfl
      | cons u us =>
          have hj : joinSpace ((c :: t') :: u :: us) =
              c :: (t' ++ ([' '] ++ pyJoin [' '] (u :: us))) := by
            show ((c :: t') ++ [' ']) ++ pyJoin [' '] (u :: us) = _
            simp [List.append_assoc]
          rw [hj, pySplit_cons_of_tok _ hc,
            takeWhile_append_of_all t' _ (fun x hx => by simp [ht' x hx]),
            dropWhile_append_of_all t' _ (fun x hx => by simp [ht' x hx])]
          have hsp : pyIsSpace ' ' = true := by decide
          simp only [List.singleton_append, List.takeWhile_cons,
            List.dropWhile_cons, hsp, Bool.not_true, if_neg (by simp : ¬(false = true)),
            List.append_nil]
          rw [pySplit_cons_of_space _ hsp]
          exact congrArg (fun l => (c :: t') :: l) (ih (fun x hx => h x (by simp [hx])))

/-- Splitting ignores leading whitespace. -/
theorem pySplit_dropWhile_ws (s : List Char) :
    pySplit (s.dropWhile pyIsSpace) = pySplit s := by
  unfold pySplit
  rw [pySplitGo_irrel (s.dropWhile pyIsSpace).length s.length _
      le_rfl (length_dropWhile_le _ s)]
  exact pySplitGo_congr _ _ _ (dropWhile_idem pyIsSpace s)

theorem takeWhile_nws_append_ws (t w : List Char)
    (hw : ∀ c ∈ w, pyIsSpace c = true) :
    (t ++ w).takeWhile (fun x => !pyIsSpace x) =
      t.takeWhile (fun x => !pyIsSpace x) := by
  induction t with
  | nil =>
      cases w with
      | nil => rfl
      | cons a w' => simp [List.takeWhile_cons, hw a (by simp)]
  | cons a t' ih =>
      simp only [List.cons_append, List.takeWhile_cons]
      cases h : pyIsSpace a <;> simp [h, ih]

theorem dropWhile_nws_append_ws (t w : List Char)
    (hw : ∀ c ∈ w, pyIsSpace c = true) :
    (t ++ w).dropWhile (fun x => !pyIsSpace x) =
      t.dropWhile (fun x => !pyIsSpace x) ++ w := by
  induction t with
  | nil =>
      cases w with
      | nil => rfl
      | cons a w' => simp [List.dropWhile_cons, hw a (by simp)]
  | cons a t' ih =>
      simp only [List.cons_append, List.dropWhile_cons]
      cases h : pyIsSpace a <;> simp [h, ih]

/-- Splitting ignores appended trailing whitespace. -/
theorem pySplit_append_wsAux :
    ∀ n (s w : List Char), s.length ≤ n → (∀ c ∈ w, pyIsSpace c = true) →
      pySplit (s ++ w) = pySplit s := by
  intro n
  induction n with
  | zero =>
      intro s w hs hw
      have : s = [] := List.length_eq_zero.mp (by omega)
      subst this
      simpa using pySplit_all_space hw
  | succ n ih =>
      intro s w hs hw
      cases s with
      | nil => simpa using pySplit_all_space hw
      | cons c s' =>
          by_cases hc : pyIsSpace c = true
          · rw [List.cons_append, pySplit_cons_of_space _ hc,
              pySplit_cons_of_space _ hc]
            exact ih s' w (by simp at hs; omega) hw
          · have hc' : pyIsSpace c = false := by simpa using hc
            rw [List.cons_append, pySplit_cons_of_tok _ hc',
              pySplit_cons_of_tok _ hc',
              takeWhile_nws_append_ws s' w hw,
              dropWhile_nws_append_ws s' w hw,
              ih (s'.dropWhile (fun x => !pyIsSpace x)) w
                (by have := length_dropWhile_le (fun x => !pyIsSpace x) s'
                    simp at hs; omega) hw]

theorem pySplit_append_ws (s w : List Char) (hw : ∀ c ∈ w, pyIsSpace c = true) :
    pySplit (s ++ w) = pySplit s :=
  pySplit_append_wsAux s.length s w le_rfl hw

/-- Splitting after stripping is splitting: `split` already discards the
whitespace at both ends. -/
theorem pySplit_pyStrip (s : List Char) : pySplit (pyStrip s) = pySplit s := by
  unfold pyStrip
  set u := s.dropWhile pyIsSpace with hu
  have hdecomp : u = (u.reverse.dropWhile pyIsSpace).reverse ++
      (u.reverse.takeWhile pyIsSpace).reverse := by
    conv_lhs => rw [← List.reverse_reverse u,
      ← List.takeWhile_append_dropWhile pyIsSpace u.reverse]
    rw [List.reverse_append]
  have hws : ∀ c ∈ (u.reverse.takeWhile pyIsSpace).reverse, pyIsSpace c = true := by
    intro c hcm
    exact List.mem_takeWhile_imp (List.mem_reverse.mp hcm)
  calc pySplit (u.reverse.dropWhile pyIsSpace).reverse
      = pySplit ((u.reverse.dropWhile pyIsSpace).reverse ++
          (u.reverse.takeWhile pyIsSpace).reverse) :=
        (pySplit_append_ws _ _ hws).symm
    _ = pySplit u := by rw [← hdecomp]
    _ = pySplit s := pySplit_dropWhile_ws s

/-- Characters of a joined token list come from the tokens or the
separator. -/
theorem mem_pyJoin {c : Char} (sep : List Char) :
    ∀ ts, c ∈ pyJoin sep ts → (∃ t ∈ ts, c ∈ t) ∨ c ∈ sep := by
  intro ts
  induction ts with
  | nil => intro h; simp [pyJoin] at h
  | cons t ts' ih =>
      intro h
      cases ts' with
      | nil => exact .inl ⟨t, by simp, h⟩
      | cons u us =>
          have : c ∈ (t ++ sep) ++ pyJoin sep (u :: us) := h
          rcases List.mem_append.mp this with h1 | h2
          · rcases List.mem_append.mp h1 with h3 | h4
            · exact .inl ⟨t, by simp, h3⟩
            · exact .inr h4
          · rcases ih h2 with ⟨t', ht', hc⟩ | hsep
            · exact .inl ⟨t', by simp [ht'], hc⟩
            · exact .inr hsep

/-- Characters of every token of `split s` occur in `s`. -/
theorem pySplit_chars_subAux :
    ∀ n (s : List Char), s.length ≤ n → ∀ t ∈ pySplit s, ∀ c ∈ t, c ∈ s := by
  intro n
  induction n with
  | zero =>
      intro s hs t ht
      have : s = [] := List.length_eq_zero.mp (by omega)
      subst this
      simp [pySplit, pySplitGo] at ht
  | succ n ih =>
      intro s hs t ht c hc
      cases s with
      | nil => simp [pySplit, pySplitGo] at ht
      | cons a s' =>
          by_cases ha : pyIsSpace a = true
          · rw [pySplit_cons_of_space s' ha] at ht
            exact List.mem_cons_of_mem a (ih s' (by simp at hs; omega) t ht c hc)
          · rw [pySplit_cons_of_tok s' (by simpa using ha)] at ht
            rcases List.mem_cons.mp ht with rfl | ht
            · rcases List.mem_cons.mp hc with rfl | hc
              · simp
              · exact List.mem_cons_of_mem a
                  ((List.takeWhile_sublist _).subset hc)
            · have hmem := ih (s'.dropWhile (fun x => !pyIsSpace x))
                (by have := length_dropWhile_le (fun x => !pyIsSpace x) s'
                    simp at hs; omega) t ht c hc
              exact List.mem_cons_of_mem a ((List.dropWhile_sublist _).subset hmem)

theorem pySplit_chars_sub (s : List Char) :
    ∀ t ∈ pySplit s, ∀ c ∈ t, c ∈ s :=
  pySplit_chars_subAux s.length s le_rfl

/-- Characters of the stripped string occur in the string. -/
theorem pyStrip_subset {c : Char} {s : List Char} (h : c ∈ pyStrip s) : c ∈ s := by
  unfold pyStrip at h
  have h1 := List.mem_reverse.mp h
  have h2 := (List.dropWhile_sublist pyIsSpace).subset h1
  have h3 := List.mem_reverse.mp h2
  exact (List.dropWhile_sublist pyIsSpace).subset h3

/-! ## Lemmas: the normalizer on ASCII text -/

theorem toNat_ofNat_small (n : Nat) (h : n < 128) : (Char.ofNat n).toNat = n := by
  simp [Char.ofNat, dif_pos (Or.inl (by omega : n < 0xd800)), Char.ofNatAux, Char.toNat]
  rfl

theorem flatten_map_of_singleton {f : Char → List Char} {s : List Char}
    (h : ∀ c ∈ s, f c = [c]) : (s.map f).flatten = s := by
  induction s with
  | nil => rfl
  | cons c t ih =>
      simp only [List.map_cons, List.flatten_cons, h c (by simp)]
      rw [ih (fun x hx => h x (by simp [hx]))]
      rfl

theorem nfkcChar_ascii {c : Char} (h : c.toNat < 128) : nfkcChar c = [c.toNat] := by
  unfold nfkcChar
  have hkeys : ∀ p ∈ nfkcTable, 128 ≤ p.1 := by decide
  rw [List.find?_eq_none.mpr]
  intro p hp
  have := hkeys p hp
  simp only [beq_iff_eq]
  omega

theorem nfkc_ascii_id {s : List Char} (h : ∀ c ∈ s, c.toNat < 128) :
    nfkc s = s := by
  unfold nfkc
  apply flatten_map_of_singleton
  intro c hc
  rw [nfkcChar_ascii (h c hc)]
  simp [ofCodes, Char.ofNat_toNat]

theorem lowerChar_ascii_notUpper {c : Char} (h : c.toNat < 128)
    (h2 : ¬(65 ≤ c.toNat ∧ c.toNat ≤ 90)) : lowerChar c = [c.toNat] := by
  unfold lowerChar
  have hkeys : ∀ p ∈ lowerTable, 128 ≤ p.1 := by decide
  rw [if_neg (by simp; omega), if_neg (by simp; omega), List.find?_eq_none.mpr]
  intro p hp
  have := hkeys p hp
  simp only [beq_iff_eq]
  omega

theorem pyLower_id_of {s : List Char}
    (h : ∀ c ∈ s, c.toNat < 128 ∧ ¬(65 ≤ c.toNat ∧ c.toNat ≤ 90)) :
    pyLower s = s := by
  unfold pyLower
  apply flatten_map_of_singleton
  intro c hc
  rw [lowerChar_ascii_notUpper (h c hc).1 (h c hc).2]
  simp [ofCodes, Char.ofNat_toNat]

/-- On an ASCII code point `str.lower()` yields one ASCII code point that is
not an uppercase letter. -/
theorem lowerChar_ascii_out {c : Char} {m : Nat} (h : c.toNat < 128)
    (hm : m ∈ lowerChar c) : m < 128 ∧ ¬(65 ≤ m ∧ m ≤ 90) := by
  unfold lowerChar at hm
  by_cases hup : (65 ≤ c.toNat && c.toNat ≤ 90) = true
  · rw [if_pos hup] at hm
    simp only [List.mem_singleton] at hm
    subst hm
    simp at hup
    omega
  · rw [if_neg hup, if_neg (by simp at hup ⊢; omega)] at hm
    have hkeys : ∀ p ∈ lowerTable, 128 ≤ p.1 := by decide
    rw [List.find?_eq_none.mpr (fun p hp => by
      have := hkeys p hp
      simp only [beq_iff_eq]
      omega)] at hm
    simp only [List.mem_singleton] at hm
    subst hm
    simp at hup
    omega

/-- Characters of `str.lower()` of an ASCII string are ASCII and not
uppercase letters. -/
theorem pyLower_ascii_chars {s : List Char} {x : Char}
    (h : ∀ c ∈ s, c.toNat < 128) (hx : x ∈ pyLower s) :
    x.toNat < 128 ∧ ¬(65 ≤ x.toNat ∧ x.toNat ≤ 90) := by
  unfold pyLower at hx
  obtain ⟨l, hl, hxl⟩ := List.mem_flatten.mp hx
  obtain ⟨c, hc, rfl⟩ := List.mem_map.mp hl
  obtain ⟨m, hm, rfl⟩ := List.mem_map.mp hxl
  obtain ⟨hm128, hmup⟩ := lowerChar_ascii_out (h c hc) hm
  rw [toNat_ofNat_small m hm128]
  exact ⟨hm128, hmup⟩

/-- `_normalize` output is a fixed point of strip-and-collapse: splitting it
and re-joining with single spaces gives it back. -/
theorem py_normalize_fixed (s : List Char) :
    joinSpace (pySplit (py_normalize s)) = py_normalize s := by
  unfold py_normalize
  rw [pySplit_joinSpace _ (pySplit_tokens _)]

/-- Every whitespace character in `_normalize` output is the ASCII space. -/
theorem py_normalize_ws_collapsed (s : List Char) :
    ∀ c ∈ py_normalize s, pyIsSpace c = true → c = ' ' := by
  intro c hc hws
  unfold py_normalize joinSpace at hc
  rcases mem_pyJoin [' '] _ hc with ⟨t, ht, hct⟩ | hsep
  · have := (pySplit_tokens _ t ht).2 c hct
    rw [this] at hws
    cases hws
  · simpa using hsep

/-- Characters of `_normalize` of an ASCII string are ASCII and not
uppercase letters. -/
theorem py_normalize_ascii_chars {s : List Char} (h : ∀ c ∈ s, c.toNat < 128) :
    ∀ x ∈ py_normalize s, x.toNat < 128 ∧ ¬(65 ≤ x.toNat ∧ x.toNat ≤ 90) := by
  intro x hx
  have hstrip : ∀ c ∈ pyStrip s, c.toNat < 128 := fun c hc => h c (pyStrip_subset hc)
  have hlow : ∀ c ∈ pyLower (pyStrip s),
      c.toNat < 128 ∧ ¬(65 ≤ c.toNat ∧ c.toNat ≤ 90) :=
    fun c hc => pyLower_ascii_chars hstrip hc
  have hn : nfkc (pyLower (pyStrip s)) = pyLower (pyStrip s) :=
    nfkc_ascii_id (fun c hc => (hlow c hc).1)
  unfold py_normalize joinSpace at hx
  rw [hn] at hx
  rcases mem_pyJoin [' '] _ hx with ⟨t, ht, hxt⟩ | hsep
  · exact hlow x (pySplit_chars_sub _ t ht x hxt)
  · have : x = ' ' := by simpa using hsep
    subst this
    refine ⟨by decide, by decide⟩

/-- `_normalize` is idempotent on ASCII strings. -/
theorem py_normalize_idem_ascii {s : List Char} (h : ∀ c ∈ s, c.toNat < 128) :
    py_normalize (py_normalize s) = py_normalize s := by
  have hts := py_normalize_ascii_chars h
  show joinSpace (pySplit (nfkc (pyLower (pyStrip (py_normalize s))))) = py_normalize s
  rw [pyLower_id_of (fun c hc => hts c (pyStrip_subset hc)),
    nfkc_ascii_id (fun c hc => (hts c (pyStrip_subset hc)).1),
    pySplit_pyStrip, py_normalize_fixed]

/-! ## Lemmas: the assembler -/

/-- With a non-empty wordlist and `n_words ≥ 2`, the word derivation
succeeds and yields exactly `n_words` words. -/
theorem fid_words_eq (input salt : List Char) (wl : List (List Char))
    (nw : Int) (hw : wl ≠ []) :
    ∃ ws, fid_words input salt wl nw = some ws ∧ ws.length = nw.toNat := by
  unfold fid_words fid_idxs py_bytes_to_indices
  have hlen : ¬ wl.length = 0 := fun h => hw (List.length_eq_zero.mp h)
  rw [if_neg hlen]
  exact ⟨_, rfl, by simp [btiOuter_length]⟩

theorem friendly_id_isOk (input salt : List Char) (wl : List (List Char))
    (nw cs : Int) (sep : List Char) (hw : wl ≠ []) (h2 : 2 ≤ nw) :
    (friendly_id input salt wl nw cs sep).isOk = true := by
  unfold friendly_id
  rw [if_neg (by omega)]
  obtain ⟨ws, hws, _⟩ := fid_words_eq input salt wl nw hw
  rw [hws]
  rfl

/-- With the checksum disabled, the identifier is exactly the words joined
by the separator. -/
theorem friendly_id_cs0 (input salt : List Char) (wl : List (List Char))
    (nw : Int) (sep : List Char) (hw : wl ≠ []) (h2 : 2 ≤ nw) :
    ∃ ws, fid_words input salt wl nw = some ws ∧ ws.length = nw.toNat ∧
      friendly_id input salt wl nw 0 sep = .ok (pyJoin sep ws) := by
  obtain ⟨ws, hws, hlen⟩ := fid_words_eq input salt wl nw hw
  refine ⟨ws, hws, hlen, ?_⟩
  unfold friendly_id
  rw [if_neg (by omega), hws]
  norm_num

/-! ## The claims -/

/-- C1: for every seed byte string, modulus ≥ 1 and count ≥ 1,
`_bytes_to_indices` produces exactly the spec's Index Stream Expander
output: big-endian uint32 values of non-overlapping complete 4-byte chunks
reduced mod `modulus`, trailing short chunks discarded, the pool replaced on
exhaustion by SHA-256(pool ‖ 2-byte big-endian counter) with the counter
starting at 1 and incrementing per extension, stopping after exactly `count`
values, in production order. -/
theorem claim_C1_expander_matches_spec (seed : List Nat) (modulus count : Nat)
    (hm : 1 ≤ modulus) (hc : 1 ≤ count) :
    py_bytes_to_indices seed modulus count = some (expandSpec seed modulus count) :=
  py_bytes_to_indices_eq_spec seed modulus count hm hc

theorem claim_C1_witness :
    1 ≤ 5 ∧ 1 ≤ 2 ∧
      py_bytes_to_indices [0, 0, 0, 7, 0, 0, 1, 2, 9] 5 2 =
        some (expandSpec [0, 0, 0, 7, 0, 0, 1, 2, 9] 5 2) :=
  ⟨by decide, by decide,
    claim_C1_expander_matches_spec [0, 0, 0, 7, 0, 0, 1, 2, 9] 5 2
      (by decide) (by decide)⟩

/-- C2: the full pipeline is deterministic — two calls of `friendly_id` with
identical arguments return byte-identical identifier strings (the embedding
is a pure function of its arguments: the source touches no ambient state). -/
theorem claim_C2_determinism (user_input secret_salt : List Char)
    (wordlist : List (List Char)) (n_words checksum_len : Int) (sep : List Char) :
    friendly_id user_input secret_salt wordlist n_words checksum_len sep =
      friendly_id user_input secret_salt wordlist n_words checksum_len sep := rfl

/-- C3 counterexample: the claim says `_normalize` lowercases with *full
Unicode case-folding*; the source uses `str.lower()`, which is Unicode
lowercasing but not case folding.  They disagree at "ß" (U+00DF): case
folding sends it to "ss", `str.lower()` leaves it unchanged, and NFKC keeps
it, so the claimed pipeline and the code produce different outputs. -/
theorem claim_C3_counterexample :
    py_normalize ['ß'] ≠ normalizeSpecCF ['ß'] := by decide

/-- C3 (amended): `_normalize` strips leading/trailing whitespace, applies
Python's Unicode lowercasing (`str.lower()`, not case-folding), applies
NFKC, and collapses every whitespace run to a single ASCII space — its
output is a fixed point of split-and-rejoin and its only whitespace
character is the ASCII space.  It is total over all strings (a total Lean
function, defined at `[]` as well). -/
theorem claim_C3_amended (s : List Char) :
    py_normalize s = joinSpace (pySplit (nfkc (pyLower (pyStrip s)))) ∧
      joinSpace (pySplit (py_normalize s)) = py_normalize s ∧
      ∀ c ∈ py_normalize s, pyIsSpace c = true → c = ' ' :=
  ⟨rfl, py_normalize_fixed s, py_normalize_ws_collapsed s⟩

theorem claim_C3_witness :
    py_normalize "  Double  SPACE  example ".toList =
      joinSpace (pySplit (nfkc (pyLower (pyStrip "  Double  SPACE  example ".toList)))) ∧
    joinSpace (pySplit (py_normalize "  Double  SPACE  example ".toList)) =
      py_normalize "  Double  SPACE  example ".toList ∧
    ∀ c ∈ py_normalize "  Double  SPACE  example ".toList,
      pyIsSpace c = true → c = ' ' :=
  claim_C3_amended "  Double  SPACE  example ".toList

/-- C4 counterexample: `_normalize` is not idempotent.  NFKC expands
"№" (U+2116) to "No" — reintroducing an uppercase letter after lowercasing
already happened — so a second pass lowers it further to "no". -/
theorem claim_C4_counterexample :
    py_normalize (py_normalize ['№']) ≠ py_normalize ['№'] := by decide

/-- C4 (amended): `normalize(normalize(s)) = normalize(s)` holds for all
ASCII strings (and whenever NFKC introduces no new case-foldable
characters); it fails in general, e.g. at "№". -/
theorem claim_C4_idem_ascii (s : List Char) (h : ∀ c ∈ s, c.toNat < 128) :
    py_normalize (py_normalize s) = py_normalize s :=
  py_normalize_idem_ascii h

theorem claim_C4_witness :
    (∀ c ∈ "  Hello   WORLD ".toList, c.toNat < 128) ∧
      py_normalize (py_normalize "  Hello   WORLD ".toList) =
        py_normalize "  Hello   WORLD ".toList :=
  ⟨by decide, claim_C4_idem_ascii "  Hello   WORLD ".toList (by decide)⟩

set_option maxRecDepth 10000 in
/-- C5 counterexample: a negative `checksum_len` does *not* raise: the
source only validates `n_words < 2`, and `friendly_id("a", "s", ["x","y"],
n_words = 2, checksum_len = -1)` returns the identifier "x-y" (the negative
length simply suppresses the checksum) instead of raising InvalidParameter. -/
theorem claim_C5_counterexample :
    (friendly_id "a".toList "s".toList ["x".toList, "y".toList]
        2 (-1) "-".toList).toOption = some "x-y".toList := by decide

/-- C5 (amended): `friendly_id` raises InvalidParameter exactly when
`word_count < 2` (in particular `word_count = 1` raises and `word_count = 2`
succeeds), the check sitting before any hashing in the source; a negative
`checksum_length` does *not* raise and the call still succeeds, the negative
length acting like 0. -/
theorem claim_C5_validation (user_input secret_salt : List Char)
    (wordlist : List (List Char)) (n_words checksum_len : Int) (sep : List Char)
    (hw : wordlist ≠ []) :
    (friendly_id user_input secret_salt wordlist n_words checksum_len sep =
        .error .invalidParameter ↔ n_words < 2) ∧
      (2 ≤ n_words →
        (friendly_id user_input secret_salt wordlist n_words checksum_len sep).isOk
          = true) := by
  constructor
  · constructor
    · intro herr
      by_contra hge
      have hok := friendly_id_isOk user_input secret_salt wordlist n_words
        checksum_len sep hw (by omega)
      rw [herr] at hok
      simp [Except.isOk, Except.toBool] at hok
    · intro hlt
      unfold friendly_id
      rw [if_pos hlt]
  · intro hge
    exact friendly_id_isOk user_input secret_salt wordlist n_words
      checksum_len sep hw hge

theorem claim_C5_witness :
    (["x".toList, "y".toList] ≠ ([] : List (List Char))) ∧
      ((friendly_id "a".toList "s".toList ["x".toList, "y".toList] 1 2 "-".toList =
          .error .invalidParameter ↔ (1 : Int) < 2) ∧
        ((2 : Int) ≤ 1 →
          (friendly_id "a".toList "s".toList ["x".toList, "y".toList]
            1 2 "-".toList).isOk = true)) :=
  ⟨by decide,
    claim_C5_validation "a".toList "s".toList ["x".toList, "y".toList]
      1 2 "-".toList (by decide)⟩

/-- C6: for every seed, modulus ≥ 1 and count ≥ 1, every one of the `count`
indices `_bytes_to_indices` produces lies in `[0, modulus)` — also on the
re-hash extension path taken when `count` exceeds a pool's chunk capacity. -/
theorem claim_C6_index_range (seed : List Nat) (modulus count : Nat)
    (hm : 1 ≤ modulus) (_hc : 1 ≤ count) :
    ∃ l, py_bytes_to_indices seed modulus count = some l ∧
      ∀ i ∈ l, i < modulus := by
  refine ⟨btiOuter (count + 1) seed modulus count 0, ?_, ?_⟩
  · unfold py_bytes_to_indices
    rw [if_neg (by omega)]
  · exact btiOuter_mem (count + 1) seed modulus count 0 hm

theorem claim_C6_witness :
    1 ≤ 7 ∧ 1 ≤ 10 ∧
      ∃ l, py_bytes_to_indices (List.replicate 32 0) 7 10 = some l ∧
        ∀ i ∈ l, i < 7 :=
  ⟨by decide, by decide,
    claim_C6_index_range (List.replicate 32 0) 7 10 (by decide) (by decide)⟩

/-- C7: for every byte string and length ≥ 1, `_checksum_base36` returns the
spec's base-36 rendering of SHA-256(input) read as a big-endian unsigned
integer — digits drawn from "0123456789ABCDEFGHIJKLMNOPQRSTUVWXYZ" by
repeated mod-36 and division, most significant digit first — and the
output has exactly `length` characters, all from that alphabet. -/
theorem claim_C7_checksum (b : List Nat) (len : Int) (_hl : 1 ≤ len) :
    py_checksum_base36 b len = specChecksum b len.toNat ∧
      (py_checksum_base36 b len).length = len.toNat ∧
      ∀ c ∈ py_checksum_base36 b len, c ∈ chars36 := by
  have he : py_checksum_base36 b len = specChecksum b len.toNat := by
    unfold py_checksum_base36 specChecksum
    rw [csLoop_eq, List.append_nil]
  refine ⟨he, ?_, ?_⟩
  · rw [he]
    exact csSpecDigits_length len.toNat _
  · rw [he]
    exact csSpecDigits_mem len.toNat _

theorem claim_C7_witness :
    (1 : Int) ≤ 2 ∧
      (py_checksum_base36 [] 2 = specChecksum [] 2 ∧
        (py_checksum_base36 [] 2).length = 2 ∧
        ∀ c ∈ py_checksum_base36 [] 2, c ∈ chars36) :=
  ⟨by decide, claim_C7_checksum [] 2 (by decide)⟩

/-- C8: with `checksum_length = 0` the checksum is the empty string and the
identifier is exactly the `word_count` derived words joined by the
separator — no checksum token and no trailing separator. -/
theorem claim_C8_checksum_suppression (user_input secret_salt : List Char)
    (wordlist : List (List Char)) (n_words : Int) (sep : List Char)
    (hw : wordlist ≠ []) (h2 : 2 ≤ n_words) :
    (∀ b, py_checksum_base36 b 0 = []) ∧
      ∃ ws, fid_words user_input secret_salt wordlist n_words = some ws ∧
        ws.length = n_words.toNat ∧
        friendly_id user_input secret_salt wordlist n_words 0 sep =
          .ok (pyJoin sep ws) :=
  ⟨fun _ => rfl, friendly_id_cs0 user_input secret_salt wordlist n_words sep hw h2⟩

theorem claim_C8_witness :
    (["x".toList, "y".toList] ≠ ([] : List (List Char))) ∧ (2 : Int) ≤ 2 ∧
      ((∀ b, py_checksum_base36 b 0 = []) ∧
        ∃ ws, fid_words "a".toList "s".toList ["x".toList, "y".toList] 2 = some ws ∧
          ws.length = (2 : Int).toNat ∧
          friendly_id "a".toList "s".toList ["x".toList, "y".toList] 2 0 "-".toList =
            .ok (pyJoin "-".toList ws)) :=
  ⟨by decide, by decide,
    claim_C8_checksum_suppression "a".toList "s".toList ["x".toList, "y".toList]
      2 "-".toList (by decide) (by decide)⟩

/-- C9: the keyed digest `_hmac_sha256(key, msg)` is HMAC-SHA256 of the
UTF-8 encoding of the normalized message under `key`, and its output is
exactly 32 bytes — and, being a pure function, it is deterministic for
identical key and message bytes. -/
theorem claim_C9_keyed_digest (key : List Nat) (msg : List Char) :
    py_hmac_sha256 key msg = hmacSha256 key (utf8 (py_normalize msg)) ∧
      (py_hmac_sha256 key msg).length = 32 :=
  ⟨rfl, hmacSha256_length key (utf8 (py_normalize msg))⟩

/-- C10: for every seed (empty or of length not a multiple of 4 included),
modulus ≥ 1 and 1 ≤ count ≤ 65536, `_bytes_to_indices` terminates with a
list of exactly `count` indices; every re-hashed pool is a SHA-256 digest of
exactly 32 bytes, so each extension round strictly reduces what is missing. -/
theorem claim_C10_termination (seed : List Nat) (modulus count : Nat)
    (hm : 1 ≤ modulus) (_hc : 1 ≤ count) (_hcap : count ≤ 65536) :
    (∃ l, py_bytes_to_indices seed modulus count = some l ∧ l.length = count) ∧
      ∀ x, (sha256 x).length = 32 := by
  refine ⟨⟨btiOuter (count + 1) seed modulus count 0, ?_, btiOuter_length seed modulus count⟩,
    sha256_length⟩
  unfold py_bytes_to_indices
  rw [if_neg (by omega)]

theorem claim_C10_witness :
    1 ≤ 3 ∧ 1 ≤ 9 ∧ 9 ≤ 65536 ∧
      ((∃ l, py_bytes_to_indices [] 3 9 = some l ∧ l.length = 9) ∧
        ∀ x, (sha256 x).length = 32) :=
  ⟨by decide, by decide, by decide,
    claim_C10_termination [] 3 9 (by decide) (by decide) (by decide)⟩

end ThreeWordHash
